import Mathlib

/-!
Verification of the pull-request review script `src/script/gemini-review.js`.

JavaScript strings are modelled as `List Char`; `null`/`undefined` values as
`Option`.  The diff-position resolver `getDiffPosition` and the response
sanitisation chain (`replace`/`replace`/`trim`) are embedded directly from the
source; the orchestrator `main` is embedded as a pure function from an
environment of collaborator responses (GitHub API, Gemini API, `JSON.parse`)
to the list of observable effects and the process exit code.
-/

set_option autoImplicit false

/-- JS `String.prototype.startsWith`: does the string begin with the pattern? -/
def strStartsWith : List Char → List Char → Bool
  | _, [] => true
  | [], _ :: _ => false
  | c :: cs, p :: ps => c == p && strStartsWith cs ps

/-- JS `String.prototype.split("\n")`: split at every newline, keeping empty
pieces (so the empty string yields one empty piece). -/
def splitLines : List Char → List (List Char)
  | [] => [[]]
  | c :: cs =>
    if c = '\n' then [] :: splitLines cs
    else
      match splitLines cs with
      | [] => [[c]]
      | l :: ls => (c :: l) :: ls

/-- Numeric value of a decimal digit character. -/
def digitVal (c : Char) : Nat := c.toNat - '0'.toNat

/-- Greedy scan of a maximal run of decimal digits, accumulating the decimal
value (this is what `parseInt(str, 10)` yields on the captured digit run). -/
def takeDigitsAux (acc : Nat) : List Char → Nat × List Char
  | [] => (acc, [])
  | c :: cs => if c.isDigit then takeDigitsAux (acc * 10 + digitVal c) cs else (acc, c :: cs)

/-- The regex atom `\d+`: at least one digit, maximal run; yields the parsed
value and the remainder of the string. -/
def takeDigits1 : List Char → Option (Nat × List Char)
  | [] => none
  | c :: cs => if c.isDigit then some (takeDigitsAux (digitVal c) cs) else none

/-- Match of the regex `@@ -\d+(?:,\d+)? \+(\d+)` anchored at the start of the
given string, returning capture group 1 parsed by `parseInt` (source line 66).
Greedy maximal-munch is equivalent to the regex's backtracking here because
`\d+` is always followed by a non-digit requirement. -/
def matchHeaderAt (s : List Char) : Option Nat :=
  match s with
  | a :: b :: c :: d :: r0 =>
    if a = '@' ∧ b = '@' ∧ c = ' ' ∧ d = '-' then
      match takeDigits1 r0 with
      | none => none
      | some (_, r1) =>
        let r2 : List Char :=
          match r1 with
          | x :: r1' =>
            if x = ',' then
              match takeDigits1 r1' with
              | some (_, r1'') => r1''
              | none => r1
            else r1
          | [] => r1
        match r2 with
        | e :: f :: r3 =>
          if e = ' ' ∧ f = '+' then
            match takeDigits1 r3 with
            | some (n, _) => some n
            | none => none
          else none
        | _ => none
    else none
  | _ => none

/-- JS `RegExp.prototype.exec` for the hunk-header regex: the match at the
leftmost position where the pattern matches, scanning left to right. -/
def execHeader : List Char → Option Nat
  | [] => none
  | c :: cs =>
    match matchHeaderAt (c :: cs) with
    | some n => some n
    | none => execHeader cs

/-- The scan loop of `getDiffPosition` (source lines 61-74): walk the patch
lines, bumping `position` on every physical line, re-seeding `fileLine` at
each hunk header, bumping `fileLine` on added and context lines, and
returning `position` at the first added line whose `fileLine` equals the
target. -/
def getDiffPositionLoop (targetLine : Int) : List (List Char) → Int → Nat → Option Nat
  | [], _, _ => none
  | line :: rest, fileLine, position =>
    let pos1 := position + 1
    if strStartsWith line ('@' :: '@' :: []) then
      match execHeader line with
      | some n => getDiffPositionLoop targetLine rest ((n : Int) - 1) pos1
      | none => getDiffPositionLoop targetLine rest fileLine pos1
    else if strStartsWith line ('+' :: []) then
      if fileLine + 1 = targetLine then some pos1
      else getDiffPositionLoop targetLine rest (fileLine + 1) pos1
    else if strStartsWith line ('-' :: []) then
      getDiffPositionLoop targetLine rest fileLine pos1
    else
      getDiffPositionLoop targetLine rest (fileLine + 1) pos1

/-- `getDiffPosition(patch, targetLine)` (source lines 58-76).  A falsy patch
(absent, or the empty string) yields `null`; otherwise the patch is split at
newlines and scanned. -/
def getDiffPosition (patch : List Char) (targetLine : Int) : Option Nat :=
  if patch = [] then none
  else getDiffPositionLoop targetLine (splitLines patch) 0 0

/-! ### The response sanitiser (source lines 160-164) -/

/-- Whitespace for JS `String.prototype.trim` (the characters relevant to
model output: space, tab, newline, carriage return, vertical tab, form feed,
no-break space, BOM). -/
def isWS (c : Char) : Bool :=
  c = ' ' || c = '\t' || c = '\n' || c = '\r' || c = '\x0B' || c = '\x0C' ||
  c = ' ' || c = '﻿'

/-- JS `String.prototype.trim`: drop whitespace from both ends. -/
def trimList (s : List Char) : List Char :=
  ((s.dropWhile isWS).reverse.dropWhile isWS).reverse

/-- Worker for global literal replacement by the empty string: `skip` counts
characters still to be skipped from an earlier match (matched text is dropped
and never rescanned, as with JS `String.replace` and a global regex). -/
def replAux (pat : List Char) : Nat → List Char → List Char
  | _, [] => []
  | Nat.succ k, _ :: cs => replAux pat k cs
  | 0, c :: cs =>
    if strStartsWith (c :: cs) pat then replAux pat (pat.length - 1) cs
    else c :: replAux pat 0 cs

/-- JS `s.replace(/pat/g, "")` for a literal pattern: remove every leftmost
non-overlapping occurrence. -/
def replaceAll (pat s : List Char) : List Char := replAux pat 0 s

/-- The sanitisation chain applied to the raw model output before `JSON.parse`
(source lines 160-163): strip every ` ```json `, then every ` ``` `, then
trim surrounding whitespace. -/
def cleaned (s : List Char) : List Char :=
  trimList (replaceAll ("```".toList) (replaceAll ("```json".toList) s))

/-! ### The orchestrator `main` (source lines 89-232) -/

/-- One element of the `listFiles` response: file name and optional patch. -/
structure FileEntry where
  filename : List Char
  patch : Option (List Char)
deriving DecidableEq

/-- One record of the JSON array the model is asked to produce for inline
review mode: `{file, line, comment}`. -/
structure ReviewComment where
  file : List Char
  line : Int
  comment : List Char
deriving DecidableEq

/-- Observable effects of a run of `main`, in program order: the `console`
diagnostics that the claims mention, and the two comment-posting API calls
(recorded only when the call succeeds). -/
inductive Eff where
  | logFetching
  | logNoFiles
  | logSending
  | logGenInline
  | logParsed
  | logInvalidJson
  | logFailedCreateReview
  | logAddedInline (n : Nat)
  | logNoInlineIssues
  | logGenSummary
  | logSummaryPosted
  | logNoSummary
  | logCompleted
  | logFatal
  | logNoPrNumber
  | postReview (comments : List (List Char × Int × List Char))
  | postIssue (body : List Char)
deriving DecidableEq

/-- Responses of the external collaborators consumed by one run of `main`.
`Except.error` means the corresponding network call rejects; `jsonParse`
models the platform `JSON.parse` restricted to the array-of-records shape the
prompt requests, with `none` for a parse error (a thrown `SyntaxError`). -/
structure Env where
  reviewMode : String
  listFiles : Except Unit (List FileEntry)
  inlineGen : Except Unit (Option (List Char))
  summaryGen : Except Unit (Option (List Char))
  pullsGet : Except Unit (List Char)
  createReview : Except Unit Unit
  createComment : Except Unit Unit
  jsonParse : List Char → Option (List ReviewComment)

/-- The payload sent to `createReview` (source lines 188-192): one
`(path, position, body)` triple per parsed comment, with the model's `line`
value passed directly as the diff position. -/
def mapComments (cs : List ReviewComment) : List (List Char × Int × List Char) :=
  cs.map (fun c => (c.file, c.line, "💡 ".toList ++ c.comment))

/-- The inline-review section of `main` (source lines 151-202).  `Except.error`
carries the trace of a section whose uncaught rejection aborts the run. -/
def inlineSection (env : Env) : Except (List Eff) (List Eff) :=
  if env.reviewMode = "inline" ∨ env.reviewMode = "full" then
    match env.inlineGen with
    | .error _ => .error [Eff.logGenInline]
    | .ok resp =>
      let parsed : Option (List ReviewComment) :=
        match resp with
        | none => none
        | some r => env.jsonParse (cleaned r)
      match parsed with
      | none => .ok [Eff.logGenInline, Eff.logInvalidJson, Eff.logNoInlineIssues]
      | some cs =>
        if cs = [] then .ok [Eff.logGenInline, Eff.logParsed, Eff.logNoInlineIssues]
        else
          match env.pullsGet with
          | .error _ =>
            .ok [Eff.logGenInline, Eff.logParsed, Eff.logFailedCreateReview,
                 Eff.logAddedInline cs.length]
          | .ok _ =>
            match env.createReview with
            | .ok _ =>
              .ok [Eff.logGenInline, Eff.logParsed, Eff.postReview (mapComments cs),
                   Eff.logAddedInline cs.length]
            | .error _ =>
              .ok [Eff.logGenInline, Eff.logParsed, Eff.logFailedCreateReview,
                   Eff.logAddedInline cs.length]
  else .ok []

/-- The summary-review section of `main` (source lines 205-224).  The
`createComment` call is not wrapped in any `try`, so its rejection aborts the
run. -/
def summarySection (env : Env) : Except (List Eff) (List Eff) :=
  if env.reviewMode = "summary" ∨ env.reviewMode = "full" then
    match env.summaryGen with
    | .error _ => .error [Eff.logGenSummary]
    | .ok none => .ok [Eff.logGenSummary, Eff.logNoSummary]
    | .ok (some r) =>
      if r = [] then .ok [Eff.logGenSummary, Eff.logNoSummary]
      else
        match env.createComment with
        | .ok _ => .ok [Eff.logGenSummary, Eff.postIssue r, Eff.logSummaryPosted]
        | .error _ => .error [Eff.logGenSummary]
  else .ok []

/-- `main` (source lines 89-227) together with the top-level rejection handler
(source lines 229-232): returns the effect trace and the process exit code. -/
def runMain (env : Env) : List Eff × Nat :=
  match env.listFiles with
  | .error _ => ([Eff.logFetching, Eff.logFatal], 1)
  | .ok files =>
    let pre : List Eff :=
      [Eff.logFetching] ++ (if files.length = 0 then [Eff.logNoFiles] else []) ++
      [Eff.logSending]
    match inlineSection env with
    | .error tr => (pre ++ tr ++ [Eff.logFatal], 1)
    | .ok tr1 =>
      match summarySection env with
      | .error tr2 => (pre ++ tr1 ++ tr2 ++ [Eff.logFatal], 1)
      | .ok tr2 => (pre ++ tr1 ++ tr2 ++ [Eff.logCompleted], 0)

/-- The whole script: the module-level PR-number check (source lines 10-17)
followed by `main`. -/
def runScript (prNumber : Option Int) (env : Env) : List Eff × Nat :=
  match prNumber with
  | none => ([Eff.logNoPrNumber], 1)
  | some _ => runMain env

/-! ### Specification-side model of a unified-diff patch

A patch is a sequence of hunks; each hunk is a well-formed header line
followed by body lines.  The header text is given by its syntactic parts so
that well-formedness is a decidable check. -/

/-- One hunk of a unified diff, by the syntactic parts of its header.  The
header reads `@@ -<oldDigits><optPart> +<newDigits><restPart>`. -/
structure Hunk where
  oldDigits : List Char
  optPart : List Char
  newDigits : List Char
  restPart : List Char
  body : List (List Char)

/-- The header line of a hunk. -/
def Hunk.header (h : Hunk) : List Char :=
  '@' :: '@' :: ' ' :: '-' ::
    (h.oldDigits ++ (h.optPart ++ (' ' :: '+' :: (h.newDigits ++ h.restPart))))

/-- Decimal value of a digit string. -/
def digitsVal (ds : List Char) : Nat :=
  ds.foldl (fun a c => a * 10 + digitVal c) 0

/-- The starting line of the hunk's new-file range, as declared by the header. -/
def Hunk.newStart (h : Hunk) : Nat := digitsVal h.newDigits

/-- Every character is a decimal digit. -/
def allDigits (ds : List Char) : Bool := ds.all (fun c => c.isDigit)

/-- Well-formed optional old-range length part: empty, or a comma followed by
a nonempty digit run. -/
def wfOpt : List Char → Bool
  | [] => true
  | x :: ds => x == ',' && !ds.isEmpty && allDigits ds

/-- The string does not continue a digit run. -/
def boundaryB : List Char → Bool
  | [] => true
  | c :: _ => !c.isDigit

/-- Well-formed hunk: nonempty digit runs in the header, the text after the
new-range start does not begin with a digit, and no body line looks like a
hunk header. -/
def wfHunk (h : Hunk) : Bool :=
  !h.oldDigits.isEmpty && allDigits h.oldDigits &&
  wfOpt h.optPart &&
  !h.newDigits.isEmpty && allDigits h.newDigits &&
  boundaryB h.restPart &&
  h.body.all (fun l => !(strStartsWith l ('@' :: '@' :: [])))

/-- Well-formed patch: every hunk well-formed. -/
def wfHunks (hs : List Hunk) : Bool := hs.all wfHunk

/-- The lines of the patch text: each hunk contributes its header followed by
its body. -/
def patchLines : List Hunk → List (List Char)
  | [] => []
  | h :: hs => (h.header :: h.body) ++ patchLines hs

/-- Specification-side new-file line numbering of a hunk body starting at
new-file line `start`: added and context lines occupy successive new-file
lines, removed lines occupy none. -/
def hunkNewNums (start : Int) : List (List Char) → List (Option Int)
  | [] => []
  | l :: ls =>
    if strStartsWith l ('-' :: []) then none :: hunkNewNums start ls
    else some start :: hunkNewNums (start + 1) ls

/-- Specification-side new-file line number of every line of the patch
(headers and removed lines get `none`). -/
def patchNums : List Hunk → List (Option Int)
  | [] => []
  | h :: hs => (none :: hunkNewNums (h.newStart : Int) h.body) ++ patchNums hs

/-- Line `i` (0-based) of the patch is an added line whose new-file line
number is the target `t`. -/
def addedAt (t : Int) (lines : List (List Char)) (nums : List (Option Int)) (i : Nat) : Prop :=
  ∃ l, lines.get? i = some l ∧ strStartsWith l ('+' :: []) = true ∧
    nums.get? i = some (some t)

/-- Index of the first added line whose new-file number is the target. -/
def firstAddedAt (t : Int) : List (List Char) → List (Option Int) → Option Nat
  | l :: ls, n :: ns =>
    if strStartsWith l ('+' :: []) = true ∧ n = some t then some 0
    else (firstAddedAt t ls ns).map (· + 1)
  | _, _ => none

/-- Number of non-removed lines of a line list. -/
def nonRemovedCount (ls : List (List Char)) : Nat :=
  ls.countP (fun l => !(strStartsWith l ('-' :: [])))

/-! ### Concrete inputs used by the witnesses -/

/-- The scenario-A patch `@@ -1,2 +1,3 @@\n line1\n+line2\n line3` as a hunk
value. -/
def hunkA : Hunk :=
  { oldDigits := ['1'], optPart := [',', '2'], newDigits := ['1'],
    restPart := [',', '3', ' ', '@', '@'],
    body := [" line1".toList, "+line2".toList, " line3".toList] }

/-- Lines of a first hunk that contains no added line numbered 21. -/
def preHunkLines : List (List Char) :=
  ["@@ -1,2 +1,3 @@".toList, " line1".toList, "+line2".toList, " line3".toList]

/-- A second hunk header re-seeding the file line to 20. -/
def hdr2 : List Char := "@@ -10,2 +20,3 @@".toList

/-- Body of the second hunk. -/
def postHunkLines : List (List Char) := ["+a".toList, "+b".toList]

/-- Environment in which the inline-mode text-generation call rejects and the
summary collaborators would succeed. -/
def envC3 : Env :=
  { reviewMode := "full",
    listFiles := .ok [{ filename := "a.cs".toList, patch := some ("@@ -1 +1 @@\n+x".toList) }],
    inlineGen := .error (),
    summaryGen := .ok (some ("looks good".toList)),
    pullsGet := .ok ("abc123".toList),
    createReview := .ok (),
    createComment := .ok (),
    jsonParse := fun _ => none }

/-- Environment with an empty changed-file set in which the model still
produces a summary. -/
def envC4 : Env :=
  { reviewMode := "full",
    listFiles := .ok [],
    inlineGen := .ok (some ("[]".toList)),
    summaryGen := .ok (some ("looks good".toList)),
    pullsGet := .ok ("abc123".toList),
    createReview := .ok (),
    createComment := .ok (),
    jsonParse := fun _ => none }

/-- Environment in which only the inline comment-posting call rejects. -/
def envC3W : Env :=
  { reviewMode := "full",
    listFiles := .ok [{ filename := "a.cs".toList, patch := some ("@@ -1 +1 @@\n+x".toList) }],
    inlineGen := .ok (some ("[x]".toList)),
    summaryGen := .ok (some ("looks good".toList)),
    pullsGet := .ok ("abc123".toList),
    createReview := .error (),
    createComment := .ok (),
    jsonParse := fun _ =>
      some [{ file := "a.cs".toList, line := 2, comment := "c".toList }] }

/-- Environment of scenario D: the model returns truncated JSON for the
inline call and the parse fails. -/
def envC5W : Env :=
  { reviewMode := "full",
    listFiles := .ok [{ filename := "a.cs".toList, patch := some ("@@ -1 +1 @@\n+x".toList) }],
    inlineGen := .ok (some ("[\"not json\"".toList)),
    summaryGen := .ok (some ("looks good".toList)),
    pullsGet := .ok ("abc123".toList),
    createReview := .ok (),
    createComment := .ok (),
    jsonParse := fun _ => none }

/-! ### Basic lemmas about the scan loop -/

theorem strStartsWith_length_le {s p : List Char} (h : strStartsWith s p = true) :
    p.length ≤ s.length := by
  induction p generalizing s with
  | nil => simp
  | cons x xs ih =>
    cases s with
    | nil => simp [strStartsWith] at h
    | cons c cs =>
      simp only [strStartsWith, Bool.and_eq_true] at h
      simpa [Nat.succ_le_succ_iff] using ih h.2

/-- Soundness of the scan loop: a returned position is `pos + i + 1` for the
index `i` of a line that starts with `+`. -/
theorem getDiffPositionLoop_sound (t : Int) :
    ∀ (lines : List (List Char)) (fl : Int) (pos p : Nat),
      getDiffPositionLoop t lines fl pos = some p →
      ∃ i, i < lines.length ∧ p = pos + i + 1 ∧
        strStartsWith (lines.getD i []) ('+' :: []) = true := by
  intro lines
  induction lines with
  | nil => intro fl pos p h; simp [getDiffPositionLoop] at h
  | cons l rest ih =>
    intro fl pos p h
    simp only [getDiffPositionLoop] at h
    by_cases hat : strStartsWith l ('@' :: '@' :: []) = true
    · rw [if_pos hat] at h
      rcases hex : execHeader l with _ | n <;> rw [hex] at h
      · obtain ⟨i, hi, hp, hadd⟩ := ih _ _ _ h
        exact ⟨i + 1, by simpa using hi, by omega, by simpa using hadd⟩
      · obtain ⟨i, hi, hp, hadd⟩ := ih _ _ _ h
        exact ⟨i + 1, by simpa using hi, by omega, by simpa using hadd⟩
    · rw [if_neg hat] at h
      by_cases hplus : strStartsWith l ('+' :: []) = true
      · rw [if_pos hplus] at h
        by_cases heq : fl + 1 = t
        · rw [if_pos heq] at h
          have hp : pos + 1 = p := Option.some.inj h
          exact ⟨0, by simp, by omega, by simpa using hplus⟩
        · rw [if_neg heq] at h
          obtain ⟨i, hi, hp, hadd⟩ := ih _ _ _ h
          exact ⟨i + 1, by simpa using hi, by omega, by simpa using hadd⟩
      · rw [if_neg hplus] at h
        by_cases hminus : strStartsWith l ('-' :: []) = true
        · rw [if_pos hminus] at h
          obtain ⟨i, hi, hp, hadd⟩ := ih _ _ _ h
          exact ⟨i + 1, by simpa using hi, by omega, by simpa using hadd⟩
        · rw [if_neg hminus] at h
          obtain ⟨i, hi, hp, hadd⟩ := ih _ _ _ h
          exact ⟨i + 1, by simpa using hi, by omega, by simpa using hadd⟩

/-- The position counter only translates the result: scanning with base
position `pos` yields the base-0 result shifted by `pos`. -/
theorem getDiffPositionLoop_shift (t : Int) :
    ∀ (lines : List (List Char)) (fl : Int) (pos : Nat),
      getDiffPositionLoop t lines fl pos =
        (getDiffPositionLoop t lines fl 0).map (· + pos) := by
  intro lines
  induction lines with
  | nil => intro fl pos; simp [getDiffPositionLoop]
  | cons l rest ih =>
    intro fl pos
    simp only [getDiffPositionLoop]
    by_cases hat : strStartsWith l ('@' :: '@' :: []) = true
    · simp only [if_pos hat]
      rcases hex : execHeader l with _ | n <;> simp only [hex]
      · rw [ih fl (pos + 1), ih fl (0 + 1), Option.map_map]
        congr 1; funext x; simp only [Function.comp_apply]; omega
      · rw [ih _ (pos + 1), ih _ (0 + 1), Option.map_map]
        congr 1; funext x; simp only [Function.comp_apply]; omega
    · simp only [if_neg hat]
      by_cases hplus : strStartsWith l ('+' :: []) = true
      · simp only [if_pos hplus]
        by_cases heq : fl + 1 = t
        · simp only [if_pos heq, Option.map_some']
          congr 1; omega
        · simp only [if_neg heq]
          rw [ih _ (pos + 1), ih _ (0 + 1), Option.map_map]
          congr 1; funext x; simp only [Function.comp_apply]; omega
      · simp only [if_neg hplus]
        by_cases hminus : strStartsWith l ('-' :: []) = true
        · simp only [if_pos hminus]
          rw [ih _ (pos + 1), ih _ (0 + 1), Option.map_map]
          congr 1; funext x; simp only [Function.comp_apply]; omega
        · simp only [if_neg hminus]
          rw [ih _ (pos + 1), ih _ (0 + 1), Option.map_map]
          congr 1; funext x; simp only [Function.comp_apply]; omega

/-- If the scan finds nothing in a prefix, the scan of the concatenation
continues into the suffix at the accumulated position, with some file-line
state. -/
theorem getDiffPositionLoop_append_none (t : Int) :
    ∀ (pre rest : List (List Char)) (fl : Int) (pos : Nat),
      getDiffPositionLoop t pre fl pos = none →
      ∃ fl', getDiffPositionLoop t (pre ++ rest) fl pos =
        getDiffPositionLoop t rest fl' (pos + pre.length) := by
  intro pre
  induction pre with
  | nil => intro rest fl pos _; exact ⟨fl, by simp⟩
  | cons l pre' ih =>
    intro rest fl pos h
    simp only [getDiffPositionLoop] at h
    simp only [List.cons_append, getDiffPositionLoop, List.length_cons, List.append_eq]
    by_cases hat : strStartsWith l ('@' :: '@' :: []) = true
    · simp only [if_pos hat] at h ⊢
      rcases hex : execHeader l with _ | n <;> simp only [hex] at h ⊢
      · obtain ⟨fl', hfl⟩ := ih rest _ _ h
        exact ⟨fl', by rw [hfl]; congr 1; omega⟩
      · obtain ⟨fl', hfl⟩ := ih rest _ _ h
        exact ⟨fl', by rw [hfl]; congr 1; omega⟩
    · simp only [if_neg hat] at h ⊢
      by_cases hplus : strStartsWith l ('+' :: []) = true
      · simp only [if_pos hplus] at h ⊢
        by_cases heq : fl + 1 = t
        · rw [if_pos heq] at h; exact absurd h (by simp)
        · simp only [if_neg heq] at h ⊢
          obtain ⟨fl', hfl⟩ := ih rest _ _ h
          exact ⟨fl', by rw [hfl]; congr 1; omega⟩
      · simp only [if_neg hplus] at h ⊢
        by_cases hminus : strStartsWith l ('-' :: []) = true
        · simp only [if_pos hminus] at h ⊢
          obtain ⟨fl', hfl⟩ := ih rest _ _ h
          exact ⟨fl', by rw [hfl]; congr 1; omega⟩
        · simp only [if_neg hminus] at h ⊢
          obtain ⟨fl', hfl⟩ := ih rest _ _ h
          exact ⟨fl', by rw [hfl]; congr 1; omega⟩

/-- A scan of lines none of which starts with `+` finds nothing. -/
theorem getDiffPositionLoop_no_plus (t : Int) :
    ∀ (lines : List (List Char)) (fl : Int) (pos : Nat),
      (∀ l ∈ lines, strStartsWith l ('+' :: []) = false) →
      getDiffPositionLoop t lines fl pos = none := by
  intro lines
  induction lines with
  | nil => intro fl pos _; simp [getDiffPositionLoop]
  | cons l rest ih =>
    intro fl pos h
    have hl : strStartsWith l ('+' :: []) = false := h l (by simp)
    have hrest : ∀ l' ∈ rest, strStartsWith l' ('+' :: []) = false :=
      fun l' hm => h l' (by simp [hm])
    simp only [getDiffPositionLoop]
    by_cases hat : strStartsWith l ('@' :: '@' :: []) = true
    · rw [if_pos hat]
      rcases execHeader l with _ | n <;> exact ih _ _ hrest
    · rw [if_neg hat, if_neg (by simp [hl])]
      split <;> exact ih _ _ hrest

/-! ### The header regex on well-formed headers -/

theorem ne_nil_of_isEmpty_eq_false {α : Type} {l : List α} (h : l.isEmpty = false) :
    l ≠ [] := by
  intro hl; subst hl; simp at h

theorem boundaryB_cons (c : Char) (cs : List Char) : boundaryB (c :: cs) = !c.isDigit := rfl

theorem takeDigitsAux_append {r : List Char} (hr : boundaryB r = true) :
    ∀ (ds : List Char), allDigits ds = true → ∀ acc : Nat,
      takeDigitsAux acc (ds ++ r) = (ds.foldl (fun a c => a * 10 + digitVal c) acc, r) := by
  intro ds
  induction ds with
  | nil =>
    intro _ acc
    cases r with
    | nil => simp [takeDigitsAux]
    | cons c cs =>
      rw [boundaryB_cons, Bool.not_eq_true'] at hr
      simp [takeDigitsAux, hr]
  | cons d ds' ih =>
    intro hd acc
    simp only [allDigits, List.all_cons, Bool.and_eq_true] at hd
    simpa [takeDigitsAux, hd.1] using ih (by simpa [allDigits] using hd.2) _

theorem takeDigits1_append (ds r : List Char) (hne : ds ≠ []) (hd : allDigits ds = true)
    (hr : boundaryB r = true) :
    takeDigits1 (ds ++ r) = some (digitsVal ds, r) := by
  cases ds with
  | nil => exact absurd rfl hne
  | cons d ds' =>
    simp only [allDigits, List.all_cons, Bool.and_eq_true] at hd
    simp [takeDigits1, hd.1, takeDigitsAux_append hr ds' (by simpa [allDigits] using hd.2),
      digitsVal]

theorem wfOpt_cases {opt : List Char} (h : wfOpt opt = true) :
    opt = [] ∨ ∃ ds, opt = ',' :: ds ∧ ds ≠ [] ∧ allDigits ds = true := by
  cases opt with
  | nil => exact Or.inl rfl
  | cons x ds =>
    simp only [wfOpt, Bool.and_eq_true, beq_iff_eq] at h
    refine Or.inr ⟨ds, ?_, ne_nil_of_isEmpty_eq_false (by simpa using h.1.2), h.2⟩
    rw [h.1.1]

theorem wfHunk_spec {h : Hunk} (hw : wfHunk h = true) :
    h.oldDigits ≠ [] ∧ allDigits h.oldDigits = true ∧ wfOpt h.optPart = true ∧
    h.newDigits ≠ [] ∧ allDigits h.newDigits = true ∧ boundaryB h.restPart = true ∧
    ∀ l ∈ h.body, strStartsWith l ('@' :: '@' :: []) = false := by
  simp only [wfHunk, Bool.and_eq_true, List.all_eq_true, Bool.not_eq_true'] at hw
  obtain ⟨⟨⟨⟨⟨⟨h1, h2⟩, h3⟩, h4⟩, h5⟩, h6⟩, h7⟩ := hw
  exact ⟨ne_nil_of_isEmpty_eq_false h1, h2, h3, ne_nil_of_isEmpty_eq_false h4, h5, h6, h7⟩

theorem matchHeaderAt_header {h : Hunk} (hw : wfHunk h = true) :
    matchHeaderAt h.header = some h.newStart := by
  obtain ⟨ho1, ho2, hopt, hn1, hn2, hrest, -⟩ := wfHunk_spec hw
  have hnew := takeDigits1_append h.newDigits h.restPart hn1 hn2 hrest
  rcases wfOpt_cases hopt with hEmpty | ⟨ds, hds, hdsne, hdsdig⟩
  · have hold := takeDigits1_append h.oldDigits
      (' ' :: '+' :: (h.newDigits ++ h.restPart)) ho1 ho2
      (by rw [boundaryB_cons]; decide)
    simp [Hunk.header, hEmpty, matchHeaderAt, hold, hnew, Hunk.newStart]
  · have hold := takeDigits1_append h.oldDigits
      (',' :: (ds ++ (' ' :: '+' :: (h.newDigits ++ h.restPart)))) ho1 ho2
      (by rw [boundaryB_cons]; decide)
    have hmid := takeDigits1_append ds (' ' :: '+' :: (h.newDigits ++ h.restPart)) hdsne hdsdig
      (by rw [boundaryB_cons]; decide)
    simp [Hunk.header, hds, matchHeaderAt, hold, hmid, hnew, Hunk.newStart]

theorem execHeader_header {h : Hunk} (hw : wfHunk h = true) :
    execHeader h.header = some h.newStart := by
  have hm := matchHeaderAt_header hw
  rw [Hunk.header] at hm ⊢
  simp only [execHeader, hm]

theorem header_startsWith_atat (h : Hunk) :
    strStartsWith h.header ('@' :: '@' :: []) = true := by
  simp [Hunk.header, strStartsWith]

theorem header_not_startsWith_plus (h : Hunk) :
    strStartsWith h.header ('+' :: []) = false := by
  simp [Hunk.header, strStartsWith]

/-! ### Correspondence of the scan with the specification-side numbering -/

theorem hunkNewNums_length (start : Int) (ls : List (List Char)) :
    (hunkNewNums start ls).length = ls.length := by
  induction ls generalizing start with
  | nil => simp [hunkNewNums]
  | cons l ls ih =>
    simp only [hunkNewNums]
    split <;> simp [ih]

theorem addedAt_cons_succ (t : Int) (l : List Char) (ls : List (List Char)) (n : Option Int)
    (ns : List (Option Int)) (j : Nat) :
    addedAt t (l :: ls) (n :: ns) (j + 1) ↔ addedAt t ls ns j := by
  simp [addedAt]

theorem addedAt_cons_zero (t : Int) (l : List Char) (ls : List (List Char)) (n : Option Int)
    (ns : List (Option Int)) :
    addedAt t (l :: ls) (n :: ns) 0 ↔
      (strStartsWith l ('+' :: []) = true ∧ n = some t) := by
  simp [addedAt]

theorem firstAddedAt_some (t : Int) :
    ∀ (ls : List (List Char)) (ns : List (Option Int)) (i : Nat),
      firstAddedAt t ls ns = some i →
      addedAt t ls ns i ∧ ∀ j, j < i → ¬ addedAt t ls ns j := by
  intro ls
  induction ls with
  | nil => intro ns i h; cases ns <;> simp [firstAddedAt] at h
  | cons l ls' ih =>
    intro ns i h
    cases ns with
    | nil => simp [firstAddedAt] at h
    | cons n ns' =>
      simp only [firstAddedAt] at h
      by_cases hc : strStartsWith l ('+' :: []) = true ∧ n = some t
      · rw [if_pos hc] at h
        obtain rfl : (0 : Nat) = i := Option.some.inj h
        refine ⟨(addedAt_cons_zero t l ls' n ns').mpr hc, ?_⟩
        intro j hj
        exact absurd hj (Nat.not_lt_zero j)
      · rw [if_neg hc] at h
        obtain ⟨i', hF, rfl⟩ := Option.map_eq_some'.mp h
        obtain ⟨hadd, hmin⟩ := ih ns' i' hF
        refine ⟨(addedAt_cons_succ t l ls' n ns' i').mpr hadd, ?_⟩
        intro j hj
        cases j with
        | zero => rw [addedAt_cons_zero]; exact hc
        | succ j' =>
          rw [addedAt_cons_succ]
          exact hmin j' (by omega)

theorem firstAddedAt_none (t : Int) :
    ∀ (ls : List (List Char)) (ns : List (Option Int)),
      firstAddedAt t ls ns = none → ∀ i, ¬ addedAt t ls ns i := by
  intro ls
  induction ls with
  | nil =>
    intro ns _ i had
    obtain ⟨l, hl, _, _⟩ := had
    simp at hl
  | cons l ls' ih =>
    intro ns h i
    cases ns with
    | nil =>
      intro had
      obtain ⟨l₀, _, _, hn⟩ := had
      simp at hn
    | cons n ns' =>
      simp only [firstAddedAt] at h
      by_cases hc : strStartsWith l ('+' :: []) = true ∧ n = some t
      · rw [if_pos hc] at h; simp at h
      · rw [if_neg hc] at h
        have hF : firstAddedAt t ls' ns' = none := by
          rcases hF : firstAddedAt t ls' ns' with _ | j
          · rfl
          · rw [hF] at h; simp at h
        cases i with
        | zero => rw [addedAt_cons_zero]; exact hc
        | succ j => rw [addedAt_cons_succ]; exact ih ns' hF j

theorem firstAddedAt_append (t : Int) :
    ∀ (ls1 : List (List Char)) (ns1 : List (Option Int)) (ls2 : List (List Char))
      (ns2 : List (Option Int)), ls1.length = ns1.length →
      firstAddedAt t (ls1 ++ ls2) (ns1 ++ ns2) =
        match firstAddedAt t ls1 ns1 with
        | some j => some j
        | none => (firstAddedAt t ls2 ns2).map (· + ls1.length) := by
  intro ls1
  induction ls1 with
  | nil =>
    intro ns1 ls2 ns2 hlen
    obtain rfl : ns1 = [] := by cases ns1 <;> simp_all
    simp [firstAddedAt]
  | cons l ls1' ih =>
    intro ns1 ls2 ns2 hlen
    cases ns1 with
    | nil => simp at hlen
    | cons n ns1' =>
      simp only [List.cons_append, firstAddedAt, List.append_eq]
      by_cases hc : strStartsWith l ('+' :: []) = true ∧ n = some t
      · simp [if_pos hc]
      · simp only [if_neg hc]
        rw [ih ns1' ls2 ns2 (by simpa using hlen)]
        rcases hF1 : firstAddedAt t ls1' ns1' with _ | j <;> simp only [hF1]
        · rcases hF2 : firstAddedAt t ls2 ns2 with _ | k <;> simp [hF2]
          omega
        · simp

theorem hunkNewNums_cons_removed {l : List Char} (h : strStartsWith l ('-' :: []) = true)
    (start : Int) (ls : List (List Char)) :
    hunkNewNums start (l :: ls) = none :: hunkNewNums start ls := by
  simp [hunkNewNums, h]

theorem hunkNewNums_cons_kept {l : List Char} (h : strStartsWith l ('-' :: []) = false)
    (start : Int) (ls : List (List Char)) :
    hunkNewNums start (l :: ls) = some start :: hunkNewNums (start + 1) ls := by
  simp [hunkNewNums, h]

theorem firstAddedAt_cons_pos {t : Int} {l : List Char} {n : Option Int}
    (h : strStartsWith l ('+' :: []) = true ∧ n = some t)
    (ls : List (List Char)) (ns : List (Option Int)) :
    firstAddedAt t (l :: ls) (n :: ns) = some 0 := by
  simp only [firstAddedAt]
  rw [if_pos h]

theorem firstAddedAt_cons_neg {t : Int} {l : List Char} {n : Option Int}
    (h : ¬(strStartsWith l ('+' :: []) = true ∧ n = some t))
    (ls : List (List Char)) (ns : List (Option Int)) :
    firstAddedAt t (l :: ls) (n :: ns) = (firstAddedAt t ls ns).map (· + 1) := by
  simp only [firstAddedAt]
  rw [if_neg h]

/-- Scanning a hunk body (no line of which looks like a header): the result
is the first added line carrying the target's new-file number, positioned
after `pos`; otherwise the scan continues past the body with the file-line
counter advanced by the number of non-removed (added or context) lines. -/
theorem scanBody (t : Int) :
    ∀ (body : List (List Char)),
      (∀ l ∈ body, strStartsWith l ('@' :: '@' :: []) = false) →
      ∀ (rest : List (List Char)) (fl : Int) (pos : Nat),
      getDiffPositionLoop t (body ++ rest) fl pos =
        match firstAddedAt t body (hunkNewNums (fl + 1) body) with
        | some j => some (pos + j + 1)
        | none =>
          getDiffPositionLoop t rest (fl + (nonRemovedCount body : Int))
            (pos + body.length) := by
  intro body
  induction body with
  | nil =>
    intro _ rest fl pos
    simp [firstAddedAt, hunkNewNums, nonRemovedCount]
  | cons l body' ih =>
    intro hb rest fl pos
    have hlnot : strStartsWith l ('@' :: '@' :: []) = false := hb l (by simp)
    have hb' : ∀ l' ∈ body', strStartsWith l' ('@' :: '@' :: []) = false :=
      fun l' hm => hb l' (List.mem_cons_of_mem _ hm)
    simp only [List.cons_append, getDiffPositionLoop, List.append_eq]
    rw [if_neg (by simp [hlnot])]
    by_cases hplus : strStartsWith l ('+' :: []) = true
    · have hlminus : strStartsWith l ('-' :: []) = false := by
        cases l with
        | nil => simp [strStartsWith] at hplus
        | cons c cs =>
          simp only [strStartsWith, Bool.and_eq_true, beq_iff_eq] at hplus
          simp [strStartsWith, hplus.1]
      rw [if_pos hplus, hunkNewNums_cons_kept hlminus]
      by_cases heq : fl + 1 = t
      · rw [if_pos heq, firstAddedAt_cons_pos ⟨hplus, by rw [heq]⟩]
      · rw [if_neg heq, firstAddedAt_cons_neg (fun hand => heq (Option.some.inj hand.2)),
          ih hb' rest (fl + 1) (pos + 1)]
        rcases hF : firstAddedAt t body' (hunkNewNums (fl + 1 + 1) body') with _ | j <;>
          simp only [hF, Option.map_none', Option.map_some']
        · have hcnt : nonRemovedCount (l :: body') = nonRemovedCount body' + 1 := by
            simp [nonRemovedCount, List.countP_cons, hlminus]
          rw [hcnt]
          have h1 : fl + 1 + (nonRemovedCount body' : Int) =
              fl + ((nonRemovedCount body' + 1 : Nat) : Int) := by push_cast; ring
          have h2 : pos + 1 + body'.length = pos + (l :: body').length := by
            simp only [List.length_cons]; omega
          rw [h1, h2]
        · congr 1
          omega
    · rw [if_neg hplus]
      by_cases hminus : strStartsWith l ('-' :: []) = true
      · rw [if_pos hminus, hunkNewNums_cons_removed hminus,
          firstAddedAt_cons_neg (fun hand => hplus hand.1),
          ih hb' rest fl (pos + 1)]
        rcases hF : firstAddedAt t body' (hunkNewNums (fl + 1) body') with _ | j <;>
          simp only [hF, Option.map_none', Option.map_some']
        · have hcnt : nonRemovedCount (l :: body') = nonRemovedCount body' := by
            simp [nonRemovedCount, List.countP_cons, hminus]
          rw [hcnt]
          have h2 : pos + 1 + body'.length = pos + (l :: body').length := by
            simp only [List.length_cons]; omega
          rw [h2]
        · congr 1
          omega
      · have hmf : strStartsWith l ('-' :: []) = false := by simpa using hminus
        rw [if_neg hminus, hunkNewNums_cons_kept hmf,
          firstAddedAt_cons_neg (fun hand => hplus hand.1),
          ih hb' rest (fl + 1) (pos + 1)]
        rcases hF : firstAddedAt t body' (hunkNewNums (fl + 1 + 1) body') with _ | j <;>
          simp only [hF, Option.map_none', Option.map_some']
        · have hcnt : nonRemovedCount (l :: body') = nonRemovedCount body' + 1 := by
            simp [nonRemovedCount, List.countP_cons, hmf]
          rw [hcnt]
          have h1 : fl + 1 + (nonRemovedCount body' : Int) =
              fl + ((nonRemovedCount body' + 1 : Nat) : Int) := by push_cast; ring
          have h2 : pos + 1 + body'.length = pos + (l :: body').length := by
            simp only [List.length_cons]; omega
          rw [h1, h2]
        · congr 1
          omega

/-- The scan of a well-formed patch returns exactly the 1-based physical index
(from `pos`) of the first added line whose specification-side new-file number
is the target, and nothing otherwise.  The incoming file-line counter is
irrelevant because every hunk starts with a header that re-seeds it. -/
theorem scanPatch (t : Int) :
    ∀ (hs : List Hunk), wfHunks hs = true → ∀ (fl : Int) (pos : Nat),
      getDiffPositionLoop t (patchLines hs) fl pos =
        match firstAddedAt t (patchLines hs) (patchNums hs) with
        | some i => some (pos + i + 1)
        | none => none := by
  intro hs
  induction hs with
  | nil => intro _ fl pos; simp [patchLines, patchNums, firstAddedAt, getDiffPositionLoop]
  | cons h hs' ih =>
    intro hw fl pos
    rw [wfHunks, List.all_cons, Bool.and_eq_true] at hw
    obtain ⟨hwh, hwh'⟩ := hw
    obtain ⟨-, -, -, -, -, -, hbody⟩ := wfHunk_spec hwh
    have hlen : h.body.length = (hunkNewNums (h.newStart : Int) h.body).length :=
      (hunkNewNums_length _ _).symm
    simp only [patchLines, patchNums, List.cons_append, List.append_eq, getDiffPositionLoop]
    rw [if_pos (header_startsWith_atat h)]
    simp only [execHeader_header hwh]
    rw [scanBody t h.body hbody (patchLines hs') ((h.newStart : Int) - 1) (pos + 1)]
    have hsub : (h.newStart : Int) - 1 + 1 = (h.newStart : Int) := by ring
    rw [hsub]
    rw [firstAddedAt_cons_neg (fun hand => Option.noConfusion hand.2),
      firstAddedAt_append t h.body (hunkNewNums (h.newStart : Int) h.body)
        (patchLines hs') (patchNums hs') hlen]
    rcases hFb : firstAddedAt t h.body (hunkNewNums (h.newStart : Int) h.body) with _ | j <;>
      simp only [hFb, Option.map_none', Option.map_some']
    · rw [ih hwh' ((h.newStart : Int) - 1 + (nonRemovedCount h.body : Int))
        (pos + 1 + h.body.length)]
      rcases hFr : firstAddedAt t (patchLines hs') (patchNums hs') with _ | k <;>
        simp only [hFr, Option.map_none', Option.map_some']
      congr 1
      omega
    · congr 1
      omega

/-! ### Claim theorems about the diff position resolver -/

theorem getDiffPosition_eq_loop {patch : List Char} (h : patch ≠ []) (t : Int) :
    getDiffPosition patch t = getDiffPositionLoop t (splitLines patch) 0 0 := by
  simp [getDiffPosition, h]

/-- C1: for every patch whose lines form well-formed hunks and every target
line `t`: if `t` is the new-file number of an added line of the patch, the
resolver returns `i + 1` where patch line `i` (0-based; equivalently line
`i + 1` when lines are 1-indexed with the first hunk header as line 1) is the
first added line numbered `t`; if no added line carries `t` (in particular
when `t` occurs only as a context line), the resolver returns `null`. -/
theorem C1_resolver_correct (hunks : List Hunk) (patch : List Char) (t : Int)
    (hwf : wfHunks hunks = true) (hsplit : splitLines patch = patchLines hunks)
    (hne : patch ≠ []) :
    ((∃ i, addedAt t (patchLines hunks) (patchNums hunks) i) →
      ∃ i, addedAt t (patchLines hunks) (patchNums hunks) i ∧
        (∀ j, j < i → ¬ addedAt t (patchLines hunks) (patchNums hunks) j) ∧
        getDiffPosition patch t = some (i + 1)) ∧
    ((∀ i, ¬ addedAt t (patchLines hunks) (patchNums hunks) i) →
      getDiffPosition patch t = none) := by
  have hres : getDiffPosition patch t =
      match firstAddedAt t (patchLines hunks) (patchNums hunks) with
      | some i => some (i + 1)
      | none => none := by
    rw [getDiffPosition_eq_loop hne, hsplit, scanPatch t hunks hwf 0 0]
    rcases firstAddedAt t (patchLines hunks) (patchNums hunks) with _ | i
    · rfl
    · simp
  constructor
  · intro hex
    obtain ⟨i₀, hadd⟩ := hex
    rcases hFa : firstAddedAt t (patchLines hunks) (patchNums hunks) with _ | i
    · exact absurd hadd (firstAddedAt_none t _ _ hFa i₀)
    · obtain ⟨ha, hmin⟩ := firstAddedAt_some t _ _ i hFa
      exact ⟨i, ha, hmin, by rw [hres, hFa]⟩
  · intro hnone
    rcases hFa : firstAddedAt t (patchLines hunks) (patchNums hunks) with _ | i
    · rw [hres, hFa]
    · obtain ⟨ha, _⟩ := firstAddedAt_some t _ _ i hFa
      exact absurd ha (hnone i)

/-- Witness for C1: the scenario-A patch with target line 2; the hypotheses
hold and the resolver returns the first (and only) added line numbered 2. -/
theorem C1_resolver_correct_witness :
    ∃ i, addedAt 2 (patchLines [hunkA]) (patchNums [hunkA]) i ∧
      (∀ j, j < i → ¬ addedAt 2 (patchLines [hunkA]) (patchNums [hunkA]) j) ∧
      getDiffPosition ("@@ -1,2 +1,3 @@\n line1\n+line2\n line3".toList) 2 =
        some (i + 1) :=
  (C1_resolver_correct [hunkA] ("@@ -1,2 +1,3 @@\n line1\n+line2\n line3".toList) 2
    (by decide) (by decide) (by decide)).1
    ⟨2, "+line2".toList, by decide, by decide, by decide⟩

/-- C2: on the scenario-A patch with target new-file line 2 the resolver in
the code returns position 3, not position 2 as the specification states: the
loop counts the `@@` header line itself as position 1, whereas the position
scheme documented in the code's own inline prompt makes the line just below
the header position 1. -/
theorem C2_scenarioA_eval :
    getDiffPosition ("@@ -1,2 +1,3 @@\n line1\n+line2\n line3".toList) 2 = some 3 ∧
    (3 : Nat) ≠ 2 :=
  ⟨by decide, by decide⟩

/-- C6 counterexample: on the patch `@@ -1,2 +1,1 @@\n-old\n+new` with target
1 the resolver returns 3, whereas an offset excluding removed lines from the
count (as the claim states) would give 2 for that added line; removed lines
therefore do advance the offset. -/
theorem C6_counterexample :
    getDiffPosition ("@@ -1,2 +1,1 @@\n-old\n+new".toList) 1 = some 3 ∧
    ((splitLines ("@@ -1,2 +1,1 @@\n-old\n+new".toList)).take 3).countP
      (fun l => !(strStartsWith l ('-' :: []))) = 2 ∧
    (3 : Nat) ≠ 2 :=
  ⟨by decide, by decide, by decide⟩

/-- C6 amended: every position returned by the resolver is the 1-based offset
of an added line in a count where every physical line of the patch — hunk
headers, added, context, and removed lines alike — contributes exactly 1. -/
theorem C6_amended_every_line_counts (patch : List Char) (t : Int) (p : Nat)
    (h : getDiffPosition patch t = some p) :
    ((splitLines patch).take p).countP (fun _ => true) = p ∧
    strStartsWith ((splitLines patch).getD (p - 1) []) ('+' :: []) = true := by
  have hne : patch ≠ [] := by
    intro hp; subst hp; simp [getDiffPosition] at h
  rw [getDiffPosition_eq_loop hne] at h
  obtain ⟨i, hi, hp, hadd⟩ := getDiffPositionLoop_sound t _ _ _ _ h
  constructor
  · have hlen : ((splitLines patch).take p).length = p := by
      rw [List.length_take]
      omega
    rw [List.countP_true]
    exact hlen
  · have hpi : p - 1 = i := by omega
    rw [hpi]
    exact hadd

/-- Witness for the amended C6 at the removed-line patch and target 1. -/
theorem C6_amended_witness :
    getDiffPosition ("@@ -1,2 +1,1 @@\n-old\n+new".toList) 1 = some 3 ∧
    (((splitLines ("@@ -1,2 +1,1 @@\n-old\n+new".toList)).take 3).countP
        (fun _ => true) = 3 ∧
      strStartsWith ((splitLines ("@@ -1,2 +1,1 @@\n-old\n+new".toList)).getD (3 - 1) [])
        ('+' :: []) = true) :=
  ⟨by decide, C6_amended_every_line_counts _ 1 3 (by decide)⟩

/-- C7: every physical line of the patch (hunk headers included) advances the
position counter by exactly 1, the counter is cumulative and does not reset
at a later hunk header, and the file-line counter is re-seeded by each
header: scanning `pre ++ hdr :: post` when `pre` holds no match equals
scanning `hdr :: post` alone — from an arbitrary fresh file-line, since the
header re-seeds it — shifted by the number of physical lines of `pre`. -/
theorem C7_position_cumulative (pre post : List (List Char)) (hdr : List Char) (n : Nat)
    (t : Int) (fl : Int)
    (hpre : getDiffPositionLoop t pre fl 0 = none)
    (hhdr : strStartsWith hdr ('@' :: '@' :: []) = true)
    (hexec : execHeader hdr = some n) :
    getDiffPositionLoop t (pre ++ hdr :: post) fl 0 =
      (getDiffPositionLoop t (hdr :: post) 0 0).map (· + pre.length) := by
  obtain ⟨fl', hfl⟩ := getDiffPositionLoop_append_none t pre (hdr :: post) fl 0 hpre
  rw [hfl]
  simp only [getDiffPositionLoop, if_pos hhdr, hexec]
  rw [getDiffPositionLoop_shift t post ((n : Int) - 1) (0 + pre.length + 1),
    getDiffPositionLoop_shift t post ((n : Int) - 1) (0 + 1), Option.map_map]
  congr 1
  funext x
  simp only [Function.comp_apply]
  omega

/-- Witness for C7: a two-hunk patch with the match in the second hunk; the
result position is the second-hunk-relative position shifted by the four
physical lines of the first hunk. -/
theorem C7_position_cumulative_witness :
    getDiffPositionLoop 21 preHunkLines 0 0 = none ∧
    strStartsWith hdr2 ('@' :: '@' :: []) = true ∧
    execHeader hdr2 = some 20 ∧
    getDiffPositionLoop 21 (preHunkLines ++ hdr2 :: postHunkLines) 0 0 =
      (getDiffPositionLoop 21 (hdr2 :: postHunkLines) 0 0).map (· + preHunkLines.length) :=
  ⟨by decide, by decide, by decide,
    C7_position_cumulative preHunkLines postHunkLines hdr2 20 21 0
      (by decide) (by decide) (by decide)⟩

/-- C8 counterexample: the patch consisting of the single line `+a` contains
no hunk-header line, yet the resolver returns position 1 for target 1: with
no header the file-line counter simply starts from 0, so added lines still
match. -/
theorem C8_counterexample :
    (∀ l ∈ splitLines ("+a".toList), strStartsWith l ('@' :: '@' :: []) = false) ∧
    getDiffPosition ("+a".toList) 1 = some 1 :=
  ⟨by decide, by decide⟩

/-- C8 amended: a patch with no hunk-header line and no added line (for
example a binary or empty diff, or an absent patch) yields not-found for
every target. -/
theorem C8_amended_no_header_no_plus (patch : List Char) (t : Int)
    (hnohdr : ∀ l ∈ splitLines patch, strStartsWith l ('@' :: '@' :: []) = false)
    (hnoplus : ∀ l ∈ splitLines patch, strStartsWith l ('+' :: []) = false) :
    getDiffPosition patch t = none := by
  by_cases hne : patch = []
  · subst hne; rfl
  · rw [getDiffPosition_eq_loop hne]
    exact getDiffPositionLoop_no_plus t _ 0 0 hnoplus

/-- Witness for the amended C8: a header-free patch of one context line and
one removed line. -/
theorem C8_amended_witness :
    (∀ l ∈ splitLines (" ctx\n-x".toList), strStartsWith l ('@' :: '@' :: []) = false) ∧
    (∀ l ∈ splitLines (" ctx\n-x".toList), strStartsWith l ('+' :: []) = false) ∧
    getDiffPosition (" ctx\n-x".toList) 5 = none :=
  ⟨by decide, by decide, C8_amended_no_header_no_plus _ 5 (by decide) (by decide)⟩

/-- C10: whenever the resolver returns a position `p` for some patch and
target, then `1 ≤ p ≤` the number of lines of the patch and the `p`-th line
(1-based over the patch split at newlines) begins with `+`: the returned
position always designates an added line, never a header, context or removed
line. -/
theorem C10_returned_position_is_added_line (patch : List Char) (t : Int) (p : Nat)
    (h : getDiffPosition patch t = some p) :
    1 ≤ p ∧ p ≤ (splitLines patch).length ∧
    strStartsWith ((splitLines patch).getD (p - 1) []) ('+' :: []) = true := by
  have hne : patch ≠ [] := by
    intro hp; subst hp; simp [getDiffPosition] at h
  rw [getDiffPosition_eq_loop hne] at h
  obtain ⟨i, hi, hp, hadd⟩ := getDiffPositionLoop_sound t _ _ _ _ h
  refine ⟨by omega, by omega, ?_⟩
  have hpi : p - 1 = i := by omega
  rw [hpi]
  exact hadd

/-- Witness for C10 at the scenario-A patch and target 2. -/
theorem C10_witness :
    getDiffPosition ("@@ -1,2 +1,3 @@\n line1\n+line2\n line3".toList) 2 = some 3 ∧
    (1 ≤ 3 ∧ 3 ≤ (splitLines ("@@ -1,2 +1,3 @@\n line1\n+line2\n line3".toList)).length ∧
      strStartsWith
        ((splitLines ("@@ -1,2 +1,3 @@\n line1\n+line2\n line3".toList)).getD (3 - 1) [])
        ('+' :: []) = true) :=
  ⟨by decide, C10_returned_position_is_added_line _ 2 3 (by decide)⟩

/-! ### The sanitiser: wrapped and unwrapped output clean to the same text -/

theorem strStartsWith_append_self : ∀ (p b : List Char), strStartsWith (p ++ b) p = true := by
  intro p
  induction p with
  | nil => intro b; cases b <;> rfl
  | cons x p' ih => intro b; simp [strStartsWith, ih]

theorem strStartsWith_append_nl : ∀ (pat : List Char), '\n' ∉ pat →
    ∀ (s T : List Char), strStartsWith (s ++ '\n' :: T) pat = strStartsWith s pat := by
  intro pat
  induction pat with
  | nil => intro _ s T; cases s <;> rfl
  | cons p ps ih =>
    intro hnl s T
    have hp : ('\n' == p) = false := by
      have : p ≠ '\n' := fun he => hnl (by simp [he])
      simp [beq_iff_eq]
      exact fun he => this he.symm
    have hps : '\n' ∉ ps := fun hm => hnl (by simp [hm])
    cases s with
    | nil => simp [strStartsWith, hp]
    | cons c cs =>
      simp only [List.cons_append, strStartsWith, List.append_eq]
      rw [ih hps cs T]

theorem replAux_skip (pat : List Char) : ∀ (a b : List Char),
    replAux pat a.length (a ++ b) = replAux pat 0 b := by
  intro a
  induction a with
  | nil => intro b; rfl
  | cons x a' ih =>
    intro b
    simp only [List.length_cons, List.cons_append, replAux]
    exact ih b

theorem replaceAll_self_prefix (p : Char) (ps b : List Char) :
    replaceAll (p :: ps) ((p :: ps) ++ b) = replaceAll (p :: ps) b := by
  show replAux (p :: ps) 0 (p :: (ps ++ b)) = replAux (p :: ps) 0 b
  simp only [replAux]
  rw [if_pos (show strStartsWith (p :: (ps ++ b)) (p :: ps) = true from by
    rw [← List.cons_append]; exact strStartsWith_append_self (p :: ps) b)]
  have hl : (p :: ps).length - 1 = ps.length := by simp
  rw [hl]
  exact replAux_skip _ ps b

theorem replaceAll_json_prefix (b : List Char) :
    replaceAll ("```json".toList) ("```json".toList ++ b) =
      replaceAll ("```json".toList) b :=
  replaceAll_self_prefix '`' ("``json".toList) b

theorem replaceAll_tick_prefix (b : List Char) :
    replaceAll ("```".toList) ("```".toList ++ b) = replaceAll ("```".toList) b :=
  replaceAll_self_prefix '`' ("``".toList) b

theorem replaceAll_cons_nomatch {pat : List Char} {c : Char} {cs : List Char}
    (h : strStartsWith (c :: cs) pat = false) :
    replaceAll pat (c :: cs) = c :: replaceAll pat cs := by
  show replAux pat 0 (c :: cs) = _
  simp only [replAux]
  rw [if_neg (by simp [h])]
  rfl

theorem strStartsWith_nl_json (X : List Char) :
    strStartsWith ('\n' :: X) ("```json".toList) = false := rfl

theorem strStartsWith_nl_tick (X : List Char) :
    strStartsWith ('\n' :: X) ("```".toList) = false := rfl

theorem replAux_append_nl {pat : List Char} (hnl : '\n' ∉ pat) (hne : pat ≠ [])
    (T : List Char) :
    ∀ (s : List Char) (skip : Nat), skip ≤ s.length →
      replAux pat skip (s ++ '\n' :: T) =
        replAux pat skip s ++ '\n' :: replAux pat 0 T := by
  intro s
  induction s with
  | nil =>
    intro skip hskip
    obtain rfl : skip = 0 := Nat.le_zero.mp hskip
    simp only [List.nil_append, replAux]
    rw [if_neg ?hc]
    case hc =>
      intro habs
      rw [show ('\n' :: T : List Char) = [] ++ '\n' :: T from rfl,
        strStartsWith_append_nl pat hnl [] T] at habs
      cases pat with
      | nil => exact hne rfl
      | cons p ps => simp [strStartsWith] at habs
  | cons c cs ih =>
    intro skip hskip
    cases skip with
    | succ k =>
      simp only [List.cons_append, replAux, List.append_eq]
      exact ih k (by simpa using hskip)
    | zero =>
      simp only [List.cons_append, replAux, List.append_eq]
      have hcond : strStartsWith (c :: (cs ++ '\n' :: T)) pat =
          strStartsWith (c :: cs) pat := by
        rw [← List.cons_append]
        exact strStartsWith_append_nl pat hnl (c :: cs) T
      rw [hcond]
      by_cases hm : strStartsWith (c :: cs) pat = true
      · rw [if_pos hm, if_pos hm]
        have hlen : pat.length ≤ cs.length + 1 := by
          simpa using strStartsWith_length_le hm
        exact ih (pat.length - 1) (by omega)
      · rw [if_neg hm, if_neg hm, List.cons_append, ih 0 (Nat.zero_le _)]

theorem replaceAll_append_nl {pat : List Char} (hnl : '\n' ∉ pat) (hne : pat ≠ [])
    (s T : List Char) :
    replaceAll pat (s ++ '\n' :: T) = replaceAll pat s ++ '\n' :: replaceAll pat T :=
  replAux_append_nl hnl hne T s 0 (Nat.zero_le _)

theorem trimList_cons_nl (s : List Char) : trimList ('\n' :: s) = trimList s := by
  have hw : isWS '\n' = true := by decide
  simp [trimList, List.dropWhile_cons, hw]

theorem trimList_append_nl : ∀ (s : List Char), trimList (s ++ ('\n' :: [])) = trimList s := by
  intro s
  induction s with
  | nil => decide
  | cons c s' ih =>
    by_cases hc : isWS c = true
    · have hdrop : ∀ X, trimList (c :: X) = trimList X := fun X => by
        simp [trimList, List.dropWhile_cons, hc]
      rw [List.cons_append, hdrop, hdrop, ih]
    · have hcf : isWS c = false := by simpa using hc
      have hkeep : ∀ X : List Char, (c :: X).dropWhile isWS = c :: X := fun X => by
        simp [List.dropWhile_cons, hcf]
      simp only [trimList, List.cons_append, hkeep]
      have hrev : (c :: (s' ++ '\n' :: [])).reverse = '\n' :: (c :: s').reverse := by
        simp
      rw [hrev, List.dropWhile_cons, if_pos (show isWS '\n' = true by decide)]

/-- Cleaning a fenced-wrapped output equals cleaning the bare output. -/
theorem cleaned_wrap (s : List Char) :
    cleaned ("```json\n".toList ++ s ++ "\n```".toList) = cleaned s := by
  have hnlJ : '\n' ∉ ("```json".toList) := by decide
  have hnlT : '\n' ∉ ("```".toList) := by decide
  have hneJ : ("```json".toList) ≠ [] := by decide
  have hneT : ("```".toList) ≠ [] := by decide
  have hshape : "```json\n".toList ++ s ++ "\n```".toList =
      "```json".toList ++ ('\n' :: (s ++ ('\n' :: "```".toList))) := by
    rw [show ("```json\n".toList : List Char) = "```json".toList ++ ('\n' :: []) from rfl,
      show ("\n```".toList : List Char) = '\n' :: "```".toList from rfl]
    simp
  simp only [cleaned]
  rw [hshape, replaceAll_json_prefix,
    replaceAll_cons_nomatch (strStartsWith_nl_json _),
    replaceAll_append_nl hnlJ hneJ s ("```".toList),
    show replaceAll ("```json".toList) ("```".toList) = "```".toList from by decide,
    replaceAll_cons_nomatch (strStartsWith_nl_tick _),
    replaceAll_append_nl hnlT hneT (replaceAll ("```json".toList) s) ("```".toList),
    show replaceAll ("```".toList) ("```".toList) = ([] : List Char) from by decide,
    trimList_cons_nl, trimList_append_nl]

/-- C9: sanitising and parsing a model output wrapped in fenced-code markers
with a language tag (a ` ```json ` fence line before, a ` ``` ` fence line
after) yields the same parsed result as sanitising and parsing the unwrapped
output, whatever the structural parse function is. -/
theorem C9_sanitizer_unwrap_invariant (s : List Char)
    (parse : List Char → Option (List ReviewComment)) :
    parse (cleaned ("```json\n".toList ++ s ++ "\n```".toList)) = parse (cleaned s) := by
  rw [cleaned_wrap]

/-! ### Claim theorems about the orchestrator -/

theorem inlineSection_ok_cases (env : Env) (r : Option (List Char)) (sha : List Char)
    (hgen : env.inlineGen = .ok r) (hsha : env.pullsGet = .ok sha)
    (hrev : env.createReview = .ok ()) :
    ∃ tr, inlineSection env = .ok tr ∧ Eff.logFatal ∉ tr := by
  rw [inlineSection]
  by_cases hmode : env.reviewMode = "inline" ∨ env.reviewMode = "full"
  · rw [if_pos hmode]
    simp only [hgen]
    cases r with
    | none => exact ⟨_, rfl, by decide⟩
    | some rr =>
      rcases hp : env.jsonParse (cleaned rr) with _ | cs <;> simp only [hp]
      · exact ⟨_, rfl, by decide⟩
      · by_cases hcs : cs = []
        · rw [if_pos hcs]
          exact ⟨_, rfl, by decide⟩
        · rw [if_neg hcs]
          simp only [hsha, hrev]
          refine ⟨_, rfl, ?_⟩
          simp
  · rw [if_neg hmode]
    exact ⟨[], rfl, by decide⟩

theorem summarySection_ok_cases (env : Env) (t : Option (List Char))
    (hsum : env.summaryGen = .ok t) (hcc : env.createComment = .ok ()) :
    ∃ tr, summarySection env = .ok tr ∧ Eff.logFatal ∉ tr := by
  rw [summarySection]
  by_cases hmode : env.reviewMode = "summary" ∨ env.reviewMode = "full"
  · rw [if_pos hmode]
    cases t with
    | none =>
      simp only [hsum]
      exact ⟨_, rfl, by decide⟩
    | some tt =>
      simp only [hsum]
      by_cases ht : tt = []
      · rw [if_pos ht]
        exact ⟨_, rfl, by decide⟩
      · rw [if_neg ht]
        simp only [hcc]
        refine ⟨_, rfl, ?_⟩
        simp
  · rw [if_neg hmode]
    exact ⟨[], rfl, by decide⟩

theorem summarySection_shape (env : Env)
    (hmode : env.reviewMode = "summary" ∨ env.reviewMode = "full") :
    ∃ tr, (summarySection env = .ok tr ∨ summarySection env = .error tr) ∧
      Eff.logGenSummary ∈ tr ∧ ∀ cs, Eff.postReview cs ∉ tr := by
  rw [summarySection, if_pos hmode]
  rcases hsg : env.summaryGen with e | resp
  · simp only [hsg]
    exact ⟨_, Or.inr rfl, by decide, by simp⟩
  · cases resp with
    | none =>
      simp only [hsg]
      exact ⟨_, Or.inl rfl, by decide, by simp⟩
    | some rr =>
      simp only [hsg]
      by_cases ht : rr = []
      · rw [if_pos ht]
        exact ⟨_, Or.inl rfl, by decide, by simp⟩
      · rw [if_neg ht]
        rcases hcc : env.createComment with e | u <;> simp only [hcc]
        · exact ⟨_, Or.inr rfl, by decide, by simp⟩
        · exact ⟨_, Or.inl rfl, by simp, by simp⟩

/-- C3 counterexample: in `envC3` the inline-mode text-generation call
rejects; the run exits with code 1 and summary mode never starts, so a failed
network call of one mode is not confined to that mode. -/
theorem C3_counterexample :
    (runMain envC3).2 = 1 ∧ Eff.logGenSummary ∉ (runMain envC3).1 ∧
    Eff.postIssue ("looks good".toList) ∉ (runMain envC3).1 := by
  refine ⟨by decide, by decide, by decide⟩

/-- C3 amended: only the inline comment-posting step runs under a local
`try`: when `createReview` fails the failure is logged and summary mode still
runs, with exit code 0 when the summary calls succeed; failures of the
text-generation calls, of the changed-files fetch, or of the summary posting
call propagate to the top-level handler (exit 1), and a missing PR number is
the fatal setup failure. -/
theorem C3_amended_only_posting_caught (env : Env) (files : List FileEntry)
    (r : List Char) (cs : List ReviewComment) (sha t : List Char)
    (hmode : env.reviewMode = "full")
    (hfiles : env.listFiles = .ok files)
    (hgen : env.inlineGen = .ok (some r))
    (hparse : env.jsonParse (cleaned r) = some cs)
    (hcs : cs ≠ [])
    (hsha : env.pullsGet = .ok sha)
    (hpost : env.createReview = .error ())
    (hsum : env.summaryGen = .ok (some t))
    (ht : t ≠ [])
    (hcc : env.createComment = .ok ()) :
    (runMain env).2 = 0 ∧
    Eff.logFailedCreateReview ∈ (runMain env).1 ∧
    Eff.logGenSummary ∈ (runMain env).1 ∧
    Eff.postIssue t ∈ (runMain env).1 ∧
    runScript none env = ([Eff.logNoPrNumber], 1) := by
  have hinl : inlineSection env = .ok [Eff.logGenInline, Eff.logParsed,
      Eff.logFailedCreateReview, Eff.logAddedInline cs.length] := by
    simp only [inlineSection, if_pos (Or.inr hmode), hgen, hparse, if_neg hcs, hsha, hpost]
  have hsums : summarySection env = .ok [Eff.logGenSummary, Eff.postIssue t,
      Eff.logSummaryPosted] := by
    simp only [summarySection, if_pos (Or.inr hmode), hsum, if_neg ht, hcc]
  refine ⟨?_, ?_, ?_, ?_, rfl⟩ <;>
    simp [runMain, hfiles, hinl, hsums, List.mem_append]

/-- Witness for the amended C3 in `envC3W`: the posting call fails, the
failure is logged, and the summary is still posted with exit code 0. -/
theorem C3_amended_witness :
    (runMain envC3W).2 = 0 ∧
    Eff.logFailedCreateReview ∈ (runMain envC3W).1 ∧
    Eff.logGenSummary ∈ (runMain envC3W).1 ∧
    Eff.postIssue ("looks good".toList) ∈ (runMain envC3W).1 ∧
    runScript none envC3W = ([Eff.logNoPrNumber], 1) :=
  C3_amended_only_posting_caught envC3W
    [{ filename := "a.cs".toList, patch := some ("@@ -1 +1 @@\n+x".toList) }]
    ("[x]".toList)
    [{ file := "a.cs".toList, line := 2, comment := "c".toList }]
    ("abc123".toList) ("looks good".toList)
    rfl rfl rfl rfl (by decide) rfl rfl rfl (by decide) rfl

/-- C4 counterexample: in `envC4` the changed-file set is empty and the
no-op notice is logged, yet the pipeline still runs and posts a summary
comment — the orchestrator does not post "no comments" on an empty set. -/
theorem C4_counterexample :
    envC4.listFiles = .ok [] ∧
    Eff.logNoFiles ∈ (runMain envC4).1 ∧
    Eff.postIssue ("looks good".toList) ∈ (runMain envC4).1 ∧
    (runMain envC4).2 = 0 := by
  refine ⟨rfl, by decide, by decide, by decide⟩

/-- C4 amended: an empty changed-file set is not an error: the orchestrator
logs the no-op notice and continues the pipeline normally (the model is still
invoked for both modes and its output may still be posted), exiting 0 when
the collaborator calls succeed. -/
theorem C4_amended_empty_files_continues (env : Env) (r t : Option (List Char))
    (sha : List Char)
    (_hmode : env.reviewMode = "full")
    (hfiles : env.listFiles = .ok [])
    (hgen : env.inlineGen = .ok r)
    (hsum : env.summaryGen = .ok t)
    (hsha : env.pullsGet = .ok sha)
    (hrev : env.createReview = .ok ())
    (hcc : env.createComment = .ok ()) :
    Eff.logNoFiles ∈ (runMain env).1 ∧ (runMain env).2 = 0 ∧
    Eff.logFatal ∉ (runMain env).1 := by
  obtain ⟨tr1, h1, hf1⟩ := inlineSection_ok_cases env r sha hgen hsha hrev
  obtain ⟨tr2, h2, hf2⟩ := summarySection_ok_cases env t hsum hcc
  refine ⟨?_, ?_, ?_⟩ <;>
    simp [runMain, hfiles, h1, h2, List.mem_append, hf1, hf2]

/-- Witness for the amended C4 in `envC4`. -/
theorem C4_amended_witness :
    Eff.logNoFiles ∈ (runMain envC4).1 ∧ (runMain envC4).2 = 0 ∧
    Eff.logFatal ∉ (runMain envC4).1 :=
  C4_amended_empty_files_continues envC4 (some ("[]".toList))
    (some ("looks good".toList)) ("abc123".toList) rfl rfl rfl rfl rfl rfl rfl

/-- C5: when the sanitised inline model output fails to parse, the failure is
caught locally: the malformed-output diagnostic is logged, no inline review
is posted (the comment list is treated as empty), and the requested summary
mode still runs — the parse failure never aborts the run by itself. -/
theorem C5_sanitizer_failure_recovered (env : Env) (files : List FileEntry) (r : List Char)
    (hmode : env.reviewMode = "full")
    (hfiles : env.listFiles = .ok files)
    (hgen : env.inlineGen = .ok (some r))
    (hparse : env.jsonParse (cleaned r) = none) :
    Eff.logInvalidJson ∈ (runMain env).1 ∧
    (∀ cs, Eff.postReview cs ∉ (runMain env).1) ∧
    Eff.logGenSummary ∈ (runMain env).1 := by
  have hinl : inlineSection env = .ok [Eff.logGenInline, Eff.logInvalidJson,
      Eff.logNoInlineIssues] := by
    simp only [inlineSection, if_pos (Or.inr hmode), hgen, hparse]
  obtain ⟨tr2, hs, hmem, hnop⟩ := summarySection_shape env (Or.inr hmode)
  rcases hs with hok | herr
  · refine ⟨?_, ?_, ?_⟩
    · simp [runMain, hfiles, hinl, hok, List.mem_append]
    · intro cs
      by_cases hf : files.length = 0 <;>
        simp [runMain, hfiles, hinl, hok, List.mem_append, hf, hnop cs]
    · simp [runMain, hfiles, hinl, hok, List.mem_append, hmem]
  · refine ⟨?_, ?_, ?_⟩
    · simp [runMain, hfiles, hinl, herr, List.mem_append]
    · intro cs
      by_cases hf : files.length = 0 <;>
        simp [runMain, hfiles, hinl, herr, List.mem_append, hf, hnop cs]
    · simp [runMain, hfiles, hinl, herr, List.mem_append, hmem]

/-- Witness for C5 in `envC5W`: the model returned the truncated text
`["not json` for the inline call; the diagnostic is logged, no inline review
is posted, and summary mode still runs. -/
theorem C5_witness :
    Eff.logInvalidJson ∈ (runMain envC5W).1 ∧
    (∀ cs, Eff.postReview cs ∉ (runMain envC5W).1) ∧
    Eff.logGenSummary ∈ (runMain envC5W).1 :=
  C5_sanitizer_failure_recovered envC5W
    [{ filename := "a.cs".toList, patch := some ("@@ -1 +1 @@\n+x".toList) }]
    ("[\"not json\"".toList) rfl rfl rfl rfl
